import Mathlib

/-!
Verification development for the sharded, leader/follower replicated KV store
(coordinator + shard services).  Each definition is a shallow embedding of the
corresponding Python function; the theorems settle the specification claims.

Conventions used throughout:
* Python `int` is `Int` (arbitrary precision); hash values are `Nat`.
* JSON object values are opaque payloads, modelled as association lists of
  strings (the core never inspects them).
* Python `dict` state is modelled either as a Lean function into `Option`
  (for the shard store and the registries, where only pointwise access
  matters) or as an association list (for the ring's `_ring` dict, whose
  iteration/deletion behaviour matters).
* `time.time()` / `time.time_ns()` timestamps enter as explicit arguments;
  the claims depend only on their ordering, so they are modelled as `Int`.
* Python string comparison (used by the `(version, origin)` tuple compare)
  is lexicographic on code points; Lean's built-in `String` order is the
  same order, but we re-define it structurally on the character list so
  that it evaluates by `decide`.
-/

/-- Lexicographic comparison of character lists, mirroring Python's `<`
on strings (code-point lexicographic, shorter prefix first). -/
def charListLt : List Char → List Char → Bool
  | [], [] => false
  | [], _ :: _ => true
  | _ :: _, [] => false
  | a :: as, b :: bs => if a < b then true else if b < a then false else charListLt as bs

/-- Python `s1 < s2` on strings. -/
def pyStrLt (a b : String) : Bool := charListLt a.data b.data

theorem charListLt_irrefl (l : List Char) : charListLt l l = false := by
  induction l with
  | nil => rfl
  | cons a as ih => simp [charListLt, ih]

theorem charListLt_asymm {x y : List Char} (h : charListLt x y = true) :
    charListLt y x = false := by
  induction x generalizing y with
  | nil =>
    cases y with
    | nil => simp [charListLt] at h
    | cons b bs => simp [charListLt]
  | cons a as ih =>
    cases y with
    | nil => simp [charListLt] at h
    | cons b bs =>
      by_cases hab : a < b
      · have hba : ¬ b < a := lt_asymm hab
        simp [charListLt, hab, hba, ne_of_gt hab]
      · by_cases hba : b < a
        · simp [charListLt, hab, hba] at h
        · have := ih (y := bs)
          simp [charListLt, hab, hba] at h ⊢
          exact this h

theorem charListLt_trans {x y z : List Char} (h1 : charListLt x y = true)
    (h2 : charListLt y z = true) : charListLt x z = true := by
  induction x generalizing y z with
  | nil =>
    cases z with
    | nil =>
      cases y with
      | nil => simp [charListLt] at h1
      | cons b bs => simp [charListLt] at h2
    | cons c cs => simp [charListLt]
  | cons a as ih =>
    cases y with
    | nil => simp [charListLt] at h1
    | cons b bs =>
      cases z with
      | nil => simp [charListLt] at h2
      | cons c cs =>
        by_cases hab : a < b <;> by_cases hbc : b < c
        · have hac : a < c := lt_trans hab hbc
          simp [charListLt, hac]
        · simp [charListLt, hbc] at h2
          obtain ⟨h2a, _⟩ := h2
          have hbc' : b = c := le_antisymm h2a (le_of_not_lt hbc)
          subst hbc'
          simp [charListLt, hab]
        · simp [charListLt, hab] at h1
          obtain ⟨h1a, _⟩ := h1
          have hab' : a = b := le_antisymm h1a (le_of_not_lt hab)
          subst hab'
          simp [charListLt, hbc]
        · simp [charListLt, hab] at h1
          simp [charListLt, hbc] at h2
          obtain ⟨h1a, h1b⟩ := h1
          obtain ⟨h2a, h2b⟩ := h2
          have hab' : a = b := le_antisymm h1a (le_of_not_lt hab)
          have hbc' : b = c := le_antisymm h2a (le_of_not_lt hbc)
          subst hab'; subst hbc'
          simp [charListLt, lt_irrefl, ih h1b h2b]

theorem charListLt_conn {x y : List Char} (h1 : charListLt x y = false)
    (h2 : charListLt y x = false) : x = y := by
  induction x generalizing y with
  | nil =>
    cases y with
    | nil => rfl
    | cons b bs => simp [charListLt] at h1
  | cons a as ih =>
    cases y with
    | nil => simp [charListLt] at h2
    | cons b bs =>
      by_cases hab : a < b
      · simp [charListLt, hab] at h1
      · by_cases hba : b < a
        · simp [charListLt, hba] at h2
        · have hab' : a = b := le_antisymm (le_of_not_lt hba) (le_of_not_lt hab)
          subst hab'
          simp [charListLt, lt_irrefl] at h1 h2
          simp [ih h1 h2]

theorem pyStrLt_irrefl (s : String) : pyStrLt s s = false := charListLt_irrefl _

theorem pyStrLt_asymm {a b : String} (h : pyStrLt a b = true) : pyStrLt b a = false :=
  charListLt_asymm h

theorem pyStrLt_trans {a b c : String} (h1 : pyStrLt a b = true)
    (h2 : pyStrLt b c = true) : pyStrLt a c = true := charListLt_trans h1 h2

theorem pyStrLt_conn {a b : String} (h1 : pyStrLt a b = false)
    (h2 : pyStrLt b a = false) : a = b := by
  have h := charListLt_conn h1 h2
  cases a; cases b; exact congrArg String.mk h

/-- Python tuple comparison `(v, o) > (cv, co)` on an (int, str) pair, as used by
`InMemoryShardStore.put` / `.delete` for the LWW rule. -/
def tupGt (v : Int) (o : String) (cv : Int) (co : String) : Bool :=
  if cv < v then true else if v < cv then false else pyStrLt co o

theorem tupGt_irrefl (v : Int) (o : String) : tupGt v o v o = false := by
  simp [tupGt, pyStrLt_irrefl]

theorem tupGt_asymm {v cv : Int} {o co : String} (h : tupGt v o cv co = true) :
    tupGt cv co v o = false := by
  unfold tupGt at h ⊢
  by_cases h1 : cv < v
  · simp [h1, lt_asymm h1, ne_of_gt h1]
  · by_cases h2 : v < cv
    · simp [h1, h2] at h
    · simp [h1, h2] at h ⊢
      exact pyStrLt_asymm h

theorem tupGt_trans {v1 v2 v3 : Int} {o1 o2 o3 : String}
    (h1 : tupGt v2 o2 v1 o1 = true) (h2 : tupGt v3 o3 v2 o2 = true) :
    tupGt v3 o3 v1 o1 = true := by
  unfold tupGt at h1 h2 ⊢
  by_cases a1 : v1 < v2 <;> by_cases a2 : v2 < v3
  · simp [lt_trans a1 a2]
  · simp [a2] at h2
    obtain ⟨a2', _⟩ := h2
    have : v2 = v3 := le_antisymm a2' (le_of_not_lt a2)
    subst this
    simp [a1]
  · simp [a1] at h1
    obtain ⟨a1', _⟩ := h1
    have : v1 = v2 := le_antisymm a1' (le_of_not_lt a1)
    subst this
    simp [a2]
  · simp [a1] at h1
    simp [a2] at h2
    obtain ⟨a1', hs1⟩ := h1
    obtain ⟨a2', hs2⟩ := h2
    have e1 : v1 = v2 := le_antisymm a1' (le_of_not_lt a1)
    have e2 : v2 = v3 := le_antisymm a2' (le_of_not_lt a2)
    subst e1; subst e2
    simp [lt_irrefl, pyStrLt_trans hs1 hs2]

theorem tupGt_conn {v cv : Int} {o co : String} (h1 : tupGt v o cv co = false)
    (h2 : tupGt cv co v o = false) : v = cv ∧ o = co := by
  unfold tupGt at h1 h2
  by_cases a1 : cv < v
  · simp [a1] at h1
  · by_cases a2 : v < cv
    · simp [a1, a2, lt_asymm a2] at h2
    · have ev : v = cv := le_antisymm (le_of_not_lt a1) (le_of_not_lt a2)
      subst ev
      simp [lt_irrefl] at h1 h2
      exact ⟨rfl, pyStrLt_conn h2 h1⟩

/-! ## Shard store (`src/apps/shard/app/storage.py`, `InMemoryShardStore`)

The Python store is `Dict[str, Dict[Tuple[str,str], dict]]`: a dict from table
name to a dict from `(pk, sk)` to a slot dict.  The claims quantify over the
per-key slot contents, so the two dict levels are flattened into one total
function from `(table, pk, sk)` to an optional slot; `setdefault(table, {})`
only materialises an empty inner dict and is invisible at this granularity.
The slot dicts always carry the keys `value`, `version`, `origin`, `deleted`
(so `cur.get("origin", "")` is `cur.origin`). -/

/-- Opaque JSON-object payload (the core never inspects values). -/
abbrev Val := List (String × String)

/-- Full record key `(table, pk, sk)`. -/
abbrev RKey := String × String × String

/-- One slot of the shard store: `{"value": .., "version": .., "origin": .., "deleted": ..}`. -/
structure Slot where
  value : Val
  version : Int
  origin : String
  deleted : Bool
  deriving DecidableEq, Repr

/-- Shard store contents: the flattened `_tables` dicts. -/
def Store := RKey → Option Slot

/-- A fresh `InMemoryShardStore()`. -/
def Store.empty : Store := fun _ => none

/-- Pointwise dict write `t[(pk, sk)] = slot`. -/
def Store.upd (s : Store) (k : RKey) (r : Slot) : Store :=
  fun k2 => if k2 = k then some r else s k2

/-- `InMemoryShardStore.put`: overwrite the slot iff `(version, origin)` is
strictly greater (Python tuple order) than the current slot's pair; a missing
slot always loses. -/
def Store.put (s : Store) (table pk sk : String) (value : Val) (version : Int)
    (origin : String) : Store :=
  match s (table, pk, sk) with
  | none => s.upd (table, pk, sk) ⟨value, version, origin, false⟩
  | some cur =>
    if tupGt version origin cur.version cur.origin then
      s.upd (table, pk, sk) ⟨value, version, origin, false⟩
    else s

/-- `InMemoryShardStore.delete`: same LWW guard; on success installs a
tombstone `{"value": {}, "version": version, "origin": origin, "deleted": True}`
and returns the previous live value (`None` when the slot was absent or
already tombstoned).  Returns the pair (python return value, new store). -/
def Store.delete (s : Store) (table pk sk : String) (version : Int)
    (origin : String) : Option Val × Store :=
  match s (table, pk, sk) with
  | none => (none, s.upd (table, pk, sk) ⟨[], version, origin, true⟩)
  | some cur =>
    let prev := if cur.deleted then none else some cur.value
    if tupGt version origin cur.version cur.origin then
      (prev, s.upd (table, pk, sk) ⟨[], version, origin, true⟩)
    else (prev, s)

/-- `InMemoryShardStore.get`: the live value (hides tombstones). -/
def Store.get (s : Store) (table pk sk : String) : Option Val :=
  match s (table, pk, sk) with
  | none => none
  | some cur => if cur.deleted then none else some cur.value

/-- `InMemoryShardStore.exists`: `bool(cur) and not cur["deleted"]`. -/
def Store.existsKey (s : Store) (table pk sk : String) : Bool :=
  match s (table, pk, sk) with
  | none => false
  | some cur => !cur.deleted

/-- A replication event (`{"op": "PUT"|"DEL", ...}` broker payload, the
argument of `apply_event` in `src/apps/shard/app/main.py`). -/
inductive Ev where
  | put (table pk sk : String) (value : Val) (version : Int) (origin : String)
  | del (table pk sk : String) (version : Int) (origin : String)
  deriving DecidableEq, Repr

/-- Record key touched by an event. -/
def Ev.rkey : Ev → RKey
  | .put t pk sk _ _ _ => (t, pk, sk)
  | .del t pk sk _ _ => (t, pk, sk)

/-- The `(version, origin)` LWW tag of an event. -/
def Ev.ver : Ev → Int
  | .put _ _ _ _ v _ => v
  | .del _ _ _ v _ => v

def Ev.org : Ev → String
  | .put _ _ _ _ _ o => o
  | .del _ _ _ _ o => o

/-- The slot an event installs when it wins LWW. -/
def Ev.slot : Ev → Slot
  | .put _ _ _ value v o => ⟨value, v, o, false⟩
  | .del _ _ _ v o => ⟨[], v, o, true⟩

/-- `apply_event` (replication consumer): dispatch PUT to `store.put`,
DEL to `store.delete` (whose return value the consumer drops). -/
def applyEv (s : Store) (e : Ev) : Store :=
  match e with
  | .put t pk sk value v o => s.put t pk sk value v o
  | .del t pk sk v o => (s.delete t pk sk v o).2

/-- Applying a whole event sequence in order. -/
def applyAll (s : Store) (l : List Ev) : Store := l.foldl applyEv s

/-- Slot-level view of one apply: a missing slot always loses to the incoming
event; a present slot survives unless the incoming LWW tag is strictly
greater. -/
def slotApply (c : Option Slot) (e : Ev) : Option Slot :=
  match c with
  | none => some e.slot
  | some cur => if tupGt e.ver e.org cur.version cur.origin then some e.slot else some cur

theorem applyEv_eq (s : Store) (e : Ev) :
    applyEv s e = fun k => if k = e.rkey then slotApply (s e.rkey) e else s k := by
  funext k
  cases e with
  | put t pk sk value v o =>
    simp only [applyEv, Store.put, Ev.rkey, slotApply, Ev.ver, Ev.org, Ev.slot]
    cases hc : s (t, pk, sk) with
    | none => by_cases hk : k = (t, pk, sk) <;> simp [Store.upd, hk, hc]
    | some cur =>
      by_cases hk : k = (t, pk, sk) <;>
        by_cases hg : tupGt v o cur.version cur.origin <;>
          simp [Store.upd, hk, hc, hg]
  | del t pk sk v o =>
    simp only [applyEv, Store.delete, Ev.rkey, slotApply, Ev.ver, Ev.org, Ev.slot]
    cases hc : s (t, pk, sk) with
    | none => by_cases hk : k = (t, pk, sk) <;> simp [Store.upd, hk, hc]
    | some cur =>
      by_cases hk : k = (t, pk, sk) <;>
        by_cases hg : tupGt v o cur.version cur.origin <;>
          simp [Store.upd, hk, hc, hg]

theorem slotApply_isSome (c : Option Slot) (e : Ev) : (slotApply c e).isSome := by
  cases c with
  | none => simp [slotApply]
  | some cur =>
    by_cases hg : tupGt e.ver e.org cur.version cur.origin <;> simp [slotApply, hg]

/-- The LWW tag of the installed slot is the event tag. -/
@[simp] theorem Ev.slot_version (e : Ev) : e.slot.version = e.ver := by
  cases e <;> simp [Ev.slot, Ev.ver]

@[simp] theorem Ev.slot_origin (e : Ev) : e.slot.origin = e.org := by
  cases e <;> simp [Ev.slot, Ev.org]


/-- Weak transitivity of the LWW order: not-newer is transitive. -/
theorem tupGt_neg_trans {v1 v2 v3 : Int} {o1 o2 o3 : String}
    (h1 : tupGt v1 o1 v2 o2 = false) (h2 : tupGt v2 o2 v3 o3 = false) :
    tupGt v1 o1 v3 o3 = false := by
  by_contra hne
  have h : tupGt v1 o1 v3 o3 = true := by
    cases hx : tupGt v1 o1 v3 o3 with
    | false => exact absurd hx hne
    | true => rfl
  cases hy : tupGt v3 o3 v2 o2 with
  | true =>
    have : tupGt v1 o1 v2 o2 = true := tupGt_trans hy h
    rw [this] at h1; exact Bool.noConfusion h1
  | false =>
    obtain ⟨ev, eo⟩ := tupGt_conn h2 hy
    rw [← ev, ← eo] at h
    rw [h] at h1; exact Bool.noConfusion h1

/-- `slotApply` written through its uniform if-then-else shape. -/
theorem slotApply_some (cur : Slot) (e : Ev) :
    slotApply (some cur) e =
      some (if tupGt e.ver e.org cur.version cur.origin then e.slot else cur) := by
  by_cases hg : tupGt e.ver e.org cur.version cur.origin <;> simp [slotApply, hg]

/-- Auxiliary: the strictly newer event wins on a slot regardless of order. -/
theorem slotApply_comm_aux (c : Option Slot) (e1 e2 : Ev)
    (h : tupGt e2.ver e2.org e1.ver e1.org = true) :
    slotApply (slotApply c e1) e2 = slotApply (slotApply c e2) e1 := by
  cases c with
  | none => simp [slotApply, slotApply_some, h, tupGt_asymm h]
  | some cur =>
    by_cases h1 : tupGt e1.ver e1.org cur.version cur.origin
    · have h2 : tupGt e2.ver e2.org cur.version cur.origin = true := tupGt_trans h1 h
      simp [slotApply_some, h1, h2, h, tupGt_asymm h]
    · by_cases h2 : tupGt e2.ver e2.org cur.version cur.origin
      · simp [slotApply_some, h1, h2, tupGt_asymm h]
      · simp [slotApply_some, h1, h2]

/-- Commutativity of two applies on the same slot whose LWW tags differ
(or which are the same event). -/
theorem slotApply_comm (c : Option Slot) (e1 e2 : Ev)
    (h : e1 = e2 ∨ tupGt e1.ver e1.org e2.ver e2.org = true ∨
      tupGt e2.ver e2.org e1.ver e1.org = true) :
    slotApply (slotApply c e1) e2 = slotApply (slotApply c e2) e1 := by
  rcases h with h | h | h
  · subst h; rfl
  · exact (slotApply_comm_aux c e2 e1 h).symm
  · exact slotApply_comm_aux c e1 e2 h

/-- Pointwise form of `applyEv_eq`. -/
theorem applyEv_apply (s : Store) (e : Ev) (k : RKey) :
    applyEv s e k = if k = e.rkey then slotApply (s e.rkey) e else s k :=
  congrFun (applyEv_eq s e) k

/-- Store-level commutativity: two events commute when they touch different
keys, or touch the same key with different LWW tags (or are equal). -/
theorem applyEv_comm (e1 e2 : Ev)
    (h : e1.rkey = e2.rkey →
      e1 = e2 ∨ tupGt e1.ver e1.org e2.ver e2.org = true ∨
        tupGt e2.ver e2.org e1.ver e1.org = true) :
    ∀ s : Store, applyEv (applyEv s e1) e2 = applyEv (applyEv s e2) e1 := by
  intro s
  funext k
  rw [applyEv_apply (applyEv s e1) e2 k, applyEv_apply (applyEv s e2) e1 k,
    applyEv_apply s e1 e2.rkey, applyEv_apply s e2 e1.rkey,
    applyEv_apply s e1 k, applyEv_apply s e2 k]
  by_cases hk2 : k = e2.rkey <;> by_cases hk1 : k = e1.rkey
  · have hkk : e1.rkey = e2.rkey := hk1.symm.trans hk2
    rw [if_pos hk2, if_pos hkk.symm, if_pos hk1, if_pos hkk, ← hkk]
    exact slotApply_comm _ e1 e2 (h hkk)
  · have hne : ¬ e2.rkey = e1.rkey := fun hx => hk1 (hk2.trans hx)
    rw [if_pos hk2, if_neg hne, if_neg hk1, if_pos hk2]
  · have hne : ¬ e1.rkey = e2.rkey := fun hx => hk2 (hk1.trans hx)
    rw [if_neg hk2, if_pos hk1, if_neg hne, if_pos hk1]
  · rw [if_neg hk2, if_neg hk1, if_neg hk1, if_neg hk2]

/-- Projection of a fold of applies onto a single key. -/
theorem applyAll_proj (l : List Ev) (s : Store) (k : RKey) :
    applyAll s l k =
      List.foldl slotApply (s k) (l.filter (fun e => decide (e.rkey = k))) := by
  induction l generalizing s with
  | nil => rfl
  | cons e l ih =>
    show applyAll (applyEv s e) l k = _
    rw [ih]
    rw [applyEv_apply s e k]
    by_cases hk : e.rkey = k
    · simp [hk, List.filter_cons]
    · have : ¬ k = e.rkey := fun hx => hk hx.symm
      simp [hk, this, List.filter_cons]

theorem foldl_slotApply_some (evs : List Ev) (r : Slot) :
    (List.foldl slotApply (some r) evs).isSome := by
  induction evs generalizing r with
  | nil => rfl
  | cons e l ih =>
    rw [List.foldl_cons, slotApply_some]
    exact ih _

/-- The slot after a fold of applies is `none` iff it started `none` and no
event touched it. -/
theorem foldl_slotApply_none (evs : List Ev) (c : Option Slot) :
    List.foldl slotApply c evs = none ↔ c = none ∧ evs = [] := by
  cases evs with
  | nil => simp
  | cons e l =>
    rw [List.foldl_cons]
    cases c with
    | none =>
      simp only [slotApply]
      have := foldl_slotApply_some l e.slot
      constructor
      · intro hx; rw [hx] at this; exact absurd this (by simp)
      · rintro ⟨_, h⟩; exact absurd h (by simp)
    | some cur =>
      rw [slotApply_some]
      have := foldl_slotApply_some l
        (if tupGt e.ver e.org cur.version cur.origin then e.slot else cur)
      constructor
      · intro hx; rw [hx] at this; exact absurd this (by simp)
      · rintro ⟨h, _⟩; exact absurd h (by simp)

/-- Characterisation of the surviving slot: it is one of the applied events''
slots (or the initial slot), and its LWW tag is an upper bound of every
applied event and of the initial slot. -/
theorem foldl_slotApply_max (evs : List Ev) (c : Option Slot) (r : Slot)
    (hr : List.foldl slotApply c evs = some r) :
    (c = some r ∨ ∃ e ∈ evs, r = e.slot) ∧
    (∀ e ∈ evs, tupGt e.ver e.org r.version r.origin = false) ∧
    (∀ cr : Slot, c = some cr → tupGt cr.version cr.origin r.version r.origin = false) := by
  induction evs generalizing c with
  | nil =>
    refine ⟨Or.inl hr, by simp, ?_⟩
    intro cr hcr
    rw [hcr] at hr
    cases hr
    exact tupGt_irrefl _ _
  | cons e l ih =>
    rw [List.foldl_cons] at hr
    obtain ⟨hmem, hbound, hinit⟩ := ih _ hr
    have hstep : slotApply c e = some e.slot ∨
        (∃ cr : Slot, c = some cr ∧ slotApply c e = some cr ∧
          tupGt e.ver e.org cr.version cr.origin = false) := by
      cases c with
      | none => exact Or.inl rfl
      | some cur =>
        by_cases hg : tupGt e.ver e.org cur.version cur.origin
        · rw [slotApply_some, if_pos hg]; exact Or.inl rfl
        · rw [slotApply_some, if_neg hg]
          exact Or.inr ⟨cur, rfl, rfl, by simpa using hg⟩
    have hgoal_e : tupGt e.ver e.org r.version r.origin = false := by
      rcases hstep with hs | ⟨cr, _, hs, hle⟩
      · have := hinit e.slot hs
        simpa using this
      · exact tupGt_neg_trans hle (hinit cr hs)
    refine ⟨?_, ?_, ?_⟩
    · rcases hmem with hm | ⟨e2, he2, hre2⟩
      · rcases hstep with hs | ⟨cr, hc, hs, _⟩
        · rw [hs] at hm
          cases hm
          exact Or.inr ⟨e, by simp, rfl⟩
        · rw [hs] at hm; cases hm; rw [hc]; exact Or.inl rfl
      · exact Or.inr ⟨e2, by simp [he2], hre2⟩
    · intro e2 he2
      rcases List.mem_cons.mp he2 with he2 | he2
      · rw [he2]; exact hgoal_e
      · exact hbound e2 he2
    · intro cr hcr
      subst hcr
      by_cases hg : tupGt e.ver e.org cr.version cr.origin
      · have hs : slotApply (some cr) e = some e.slot := by
          rw [slotApply_some, if_pos hg]
        have h1 := hinit e.slot hs
        by_contra hcon
        have hcrt : tupGt cr.version cr.origin r.version r.origin = true := by
          cases hx : tupGt cr.version cr.origin r.version r.origin with
          | false => exact absurd hx hcon
          | true => rfl
        have h2 : tupGt e.ver e.org r.version r.origin = true := tupGt_trans hcrt hg
        rw [Ev.slot_version, Ev.slot_origin, h2] at h1
        exact Bool.noConfusion h1
      · have hs : slotApply (some cr) e = some cr := by
          rw [slotApply_some, if_neg hg]
        exact hinit cr hs

/-- Re-applying any event is a no-op (idempotent apply). -/
theorem applyEv_idem (s : Store) (e : Ev) : applyEv (applyEv s e) e = applyEv s e := by
  funext k
  rw [applyEv_apply (applyEv s e) e k, applyEv_apply s e k,
    applyEv_apply s e e.rkey, if_pos rfl]
  by_cases hk : k = e.rkey
  · rw [if_pos hk, if_pos hk]
    cases hc : s e.rkey with
    | none => simp [slotApply, tupGt_irrefl]
    | some cur =>
      by_cases hg : tupGt e.ver e.org cur.version cur.origin
      · rw [slotApply_some, if_pos hg, slotApply_some, Ev.slot_version,
          Ev.slot_origin, tupGt_irrefl]
        simp
      · rw [slotApply_some, if_neg hg, slotApply_some, if_neg hg]
  · rw [if_neg hk, if_neg hk]

/-- C1 (amended): for event multisets in which no two *different* events on the
same key carry the same `(version, origin)` tag, applying the events in any two
orders over empty stores yields pointwise identical contents; for every key the
stored slot is `none` iff no event touched the key, and otherwise its
`(version, origin)` is the lexicographic maximum (attained and an upper bound)
of all events applied for that key; and re-applying any event is a no-op. -/
theorem C1_lww_convergence_and_max (l1 l2 : List Ev)
    (hperm : l1.Perm l2)
    (huniq : ∀ e1 ∈ l1, ∀ e2 ∈ l1,
      e1.rkey = e2.rkey → e1.ver = e2.ver → e1.org = e2.org → e1 = e2) :
    (∀ k, applyAll Store.empty l1 k = applyAll Store.empty l2 k) ∧
    (∀ k, (applyAll Store.empty l1 k = none ↔
        l1.filter (fun e => decide (e.rkey = k)) = []) ∧
      ∀ r, applyAll Store.empty l1 k = some r →
        (∃ e ∈ l1, e.rkey = k ∧ r = e.slot) ∧
        ∀ e ∈ l1, e.rkey = k → tupGt e.ver e.org r.version r.origin = false) ∧
    (∀ (s : Store) (e : Ev), applyEv (applyEv s e) e = applyEv s e) := by
  have hcomm : ∀ x ∈ l1, ∀ y ∈ l1, ∀ z : Store,
      applyEv (applyEv z x) y = applyEv (applyEv z y) x := by
    intro x hx y hy z
    refine applyEv_comm x y (fun hk => ?_) z
    cases hg1 : tupGt x.ver x.org y.ver y.org with
    | true => exact Or.inr (Or.inl rfl)
    | false =>
      cases hg2 : tupGt y.ver y.org x.ver x.org with
      | true => exact Or.inr (Or.inr rfl)
      | false =>
        obtain ⟨hv, ho⟩ := tupGt_conn hg1 hg2
        exact Or.inl (huniq x hx y hy hk hv ho)
  refine ⟨?_, ?_, applyEv_idem⟩
  · intro k
    rw [show applyAll Store.empty l1 = applyAll Store.empty l2 from
      List.Perm.foldl_eq' hperm hcomm Store.empty]
  · intro k
    rw [applyAll_proj l1 Store.empty k]
    constructor
    · rw [foldl_slotApply_none]
      exact ⟨fun h => h.2, fun h => ⟨rfl, h⟩⟩
    · intro r hr
      obtain ⟨hmem, hbound, _⟩ := foldl_slotApply_max _ _ _ hr
      constructor
      · rcases hmem with hm | ⟨e, he, hre⟩
        · exact absurd hm (by simp [Store.empty])
        · obtain ⟨hel, hpk⟩ := List.mem_filter.mp he
          exact ⟨e, hel, of_decide_eq_true hpk, hre⟩
      · intro e hel hek
        exact hbound e (List.mem_filter.mpr ⟨hel, decide_eq_true hek⟩)

/-- First event order for the C1 counterexample: a PUT and a DEL on the same
key carrying the *same* `(version, origin) = (1, "o")` tag. -/
def c1a : List Ev :=
  [.put "t" "p" "s" [("f", "1")] 1 "o", .del "t" "p" "s" 1 "o"]

/-- The same multiset in the opposite order. -/
def c1b : List Ev :=
  [.del "t" "p" "s" 1 "o", .put "t" "p" "s" [("f", "1")] 1 "o"]

/-- C1 counterexample: the two orders of the same event multiset leave the two
stores with different contents at the touched key (live record vs tombstone),
refuting the claim for arbitrary multisets: a PUT and a DEL carrying the same
`(version, origin)` do not commute, because the store only overwrites on a
*strictly* greater tag. -/
theorem C1_counterexample :
    c1a.Perm c1b ∧
    applyAll Store.empty c1a ("t", "p", "s") ≠
      applyAll Store.empty c1b ("t", "p", "s") := by
  constructor
  · decide
  · decide

/-- Concrete instantiation of the amended C1 theorem: two PUTs with distinct
versions, applied in both orders. -/
def c1w1 : List Ev :=
  [.put "t" "p" "s" [] 1 "a", .put "t" "p" "s" [("x", "y")] 2 "b"]

def c1w2 : List Ev :=
  [.put "t" "p" "s" [("x", "y")] 2 "b", .put "t" "p" "s" [] 1 "a"]

theorem C1_lww_convergence_and_max_witness :
    (c1w1.Perm c1w2 ∧
      (∀ e1 ∈ c1w1, ∀ e2 ∈ c1w1,
        e1.rkey = e2.rkey → e1.ver = e2.ver → e1.org = e2.org → e1 = e2)) ∧
    ((∀ k, applyAll Store.empty c1w1 k = applyAll Store.empty c1w2 k) ∧
      (∀ k, (applyAll Store.empty c1w1 k = none ↔
          c1w1.filter (fun e => decide (e.rkey = k)) = []) ∧
        ∀ r, applyAll Store.empty c1w1 k = some r →
          (∃ e ∈ c1w1, e.rkey = k ∧ r = e.slot) ∧
          ∀ e ∈ c1w1, e.rkey = k → tupGt e.ver e.org r.version r.origin = false) ∧
      (∀ (s : Store) (e : Ev), applyEv (applyEv s e) e = applyEv s e)) :=
  ⟨⟨by decide, by decide⟩,
    C1_lww_convergence_and_max c1w1 c1w2 (by decide) (by decide)⟩

/-! ## Shard write endpoints (`src/apps/shard/app/main.py`, leader branch)

The leader branches of `create` and `delete` first run `_publish_or_503`
(which raises `HTTPException(503)` when `replicator.publish` raises or times
out) and only then touch the local store.  The broker interaction enters as
an abstract publish outcome; the list component records the events that were
actually handed to the replication bus. -/

/-- Outcome of `replicator.publish` (confirmed by the broker, or raised). -/
inductive Pub where
  | ok
  | failed
  deriving DecidableEq, Repr

/-- `_publish_or_503`: a failed publish becomes HTTP 503. -/
def publishOr503 (p : Pub) (ev : Ev) : Except Nat Ev :=
  match p with
  | .ok => .ok ev
  | .failed => .error 503

/-- Shard write-endpoint response: a `RecordResponse` body or an
`HTTPException` status. -/
inductive WResp where
  | ok (value : Option Val) (version : Int)
  | err (status : Nat)
  deriving DecidableEq, Repr

/-- Leader branch of `create` (POST /records): publish the PUT event, then
apply locally, then answer with the written value and version.  Returns
(response, final store, events published). -/
def createLeader (p : Pub) (s : Store) (table pk sk : String) (value : Val)
    (version : Int) (origin : String) : WResp × Store × List Ev :=
  match publishOr503 p (.put table pk sk value version origin) with
  | .error c => (.err c, s, [])
  | .ok ev =>
    (.ok (some value) version, s.put table pk sk value version origin, [ev])

/-- Leader branch of `delete` (DELETE /records): publish the DEL event, apply
`store.delete` locally, answer 404 when the previous value was `None`
(absent or already tombstoned slot), else 200 with the previous value. -/
def deleteLeader (p : Pub) (s : Store) (table pk sk : String)
    (version : Int) (origin : String) : WResp × Store × List Ev :=
  match publishOr503 p (.del table pk sk version origin) with
  | .error c => (.err c, s, [])
  | .ok ev =>
    let pr := s.delete table pk sk version origin
    match pr.1 with
    | none => (.err 404, pr.2, [ev])
    | some prev => (.ok (some prev) version, pr.2, [ev])

/-- C2: on the shard leader, when the replication-bus publish fails or times
out, both the create (PUT) and the delete (DEL) endpoints answer 503, publish
nothing, and leave the local shard store unchanged — local apply happens only
after the broker has confirmed the event. -/
theorem C2_publish_failure_leaves_store_unchanged (p : Pub) (s : Store)
    (table pk sk : String) (value : Val) (version : Int) (origin : String)
    (hp : p = .failed) :
    createLeader p s table pk sk value version origin = (.err 503, s, []) ∧
    deleteLeader p s table pk sk version origin = (.err 503, s, []) := by
  subst hp
  exact ⟨rfl, rfl⟩

theorem C2_publish_failure_leaves_store_unchanged_witness :
    createLeader .failed Store.empty "t" "p" "s" [] 1 "o" =
      (.err 503, Store.empty, []) ∧
    deleteLeader .failed Store.empty "t" "p" "s" 1 "o" =
      (.err 503, Store.empty, []) :=
  C2_publish_failure_leaves_store_unchanged .failed Store.empty
    "t" "p" "s" [] 1 "o" rfl

/-- C10: a leader DELETE of a key whose slot is absent or already tombstoned
(`store.get` is `None`) with a freshly minted tag still publishes the DEL
event and installs a new tombstone carrying that tag in the local store before
answering 404; afterwards any event for that key with a strictly smaller
`(version, origin)` is dropped by LWW (both PUT and DEL leave the store
unchanged). -/
theorem C10_delete_404_still_publishes_tombstone (s : Store)
    (table pk sk : String) (version : Int) (origin : String)
    (hdead : Store.get s table pk sk = none)
    (hfresh : ∀ cur, s (table, pk, sk) = some cur →
      tupGt version origin cur.version cur.origin = true) :
    deleteLeader .ok s table pk sk version origin =
      (.err 404, s.upd (table, pk, sk) ⟨[], version, origin, true⟩,
        [.del table pk sk version origin]) ∧
    (∀ (v2 : Int) (o2 : String) (value2 : Val),
      tupGt version origin v2 o2 = true →
      (s.upd (table, pk, sk) ⟨[], version, origin, true⟩).put
          table pk sk value2 v2 o2 =
        s.upd (table, pk, sk) ⟨[], version, origin, true⟩ ∧
      ((s.upd (table, pk, sk) ⟨[], version, origin, true⟩).delete
          table pk sk v2 o2).2 =
        s.upd (table, pk, sk) ⟨[], version, origin, true⟩) := by
  have hupd : (s.upd (table, pk, sk) ⟨[], version, origin, true⟩)
      (table, pk, sk) = some ⟨[], version, origin, true⟩ := by
    simp [Store.upd]
  constructor
  · rw [deleteLeader]
    cases hc : s (table, pk, sk) with
    | none => simp [publishOr503, Store.delete, hc]
    | some cur =>
      have hdel : cur.deleted = true := by
        rw [Store.get, hc] at hdead
        by_cases hx : cur.deleted
        · exact hx
        · simp [hx] at hdead
      simp [publishOr503, Store.delete, hc, hdel, hfresh cur hc]
  · intro v2 o2 value2 hgt
    have hng : tupGt v2 o2 version origin = false := tupGt_asymm hgt
    constructor
    · rw [Store.put, hupd]
      simp [hng]
    · rw [Store.delete, hupd]
      simp [hng]

theorem C10_delete_404_still_publishes_tombstone_witness :
    deleteLeader .ok Store.empty "t" "p" "s" 7 "o" =
      (.err 404, Store.empty.upd ("t", "p", "s") ⟨[], 7, "o", true⟩,
        [.del "t" "p" "s" 7 "o"]) ∧
    (∀ (v2 : Int) (o2 : String) (value2 : Val),
      tupGt 7 "o" v2 o2 = true →
      (Store.empty.upd ("t", "p", "s") ⟨[], 7, "o", true⟩).put
          "t" "p" "s" value2 v2 o2 =
        Store.empty.upd ("t", "p", "s") ⟨[], 7, "o", true⟩ ∧
      ((Store.empty.upd ("t", "p", "s") ⟨[], 7, "o", true⟩).delete
          "t" "p" "s" v2 o2).2 =
        Store.empty.upd ("t", "p", "s") ⟨[], 7, "o", true⟩) :=
  C10_delete_404_still_publishes_tombstone Store.empty "t" "p" "s" 7 "o"
    rfl (fun cur h => by cases h)

/-! ## Routing-tier delete route (`src/apps/coordinator/app/main.py`,
`delete_record`)

The routing tier forwards the DELETE to the shard leader.  A 404 from the
shard is mapped to a 200 with null value; a 2xx is passed through; any other
HTTP error triggers `raise_for_status`, which (like a transport failure) is
answered 502. -/

/-- Coordinator record-route response: a 200 `RecordResponse` value or an
error status. -/
inductive CResp where
  | ok (value : Option Val)
  | err (status : Nat)
  deriving DecidableEq, Repr

/-- `delete_record`: mapping of the downstream shard response; `none` models
a transport-level `requests.RequestException`. -/
def delete_record_map (r : Option WResp) : CResp :=
  match r with
  | none => .err 502
  | some (.err 404) => .ok none
  | some (.err _) => .err 502
  | some (.ok v _) => .ok v

/-- One `DeleteRecord` through the routing tier against a shard leader whose
publish succeeds: forward to the shard delete endpoint and map the response. -/
def deleteViaCoordinator (s : Store) (table pk sk : String) (version : Int)
    (origin : String) : CResp × Store :=
  let r := deleteLeader .ok s table pk sk version origin
  (delete_record_map (some r.1), r.2.1)

/-- Store holding one live record, for the C7 counterexample. -/
def c7s : Store := Store.put Store.empty "t" "p" "s" [("name", "ada")] 1 "a"

/-- C7 counterexample: when the key holds a live value, the *first*
`DeleteRecord` answers 200 with that previous value — not with null — so the
claim that both successive calls return value = null fails on a present key.
(The shard's 200 delete response carries the deleted value, and the routing
tier passes it through.) -/
theorem C7_counterexample :
    (deleteViaCoordinator c7s "t" "p" "s" 2 "a").1 =
      CResp.ok (some [("name", "ada")]) ∧
    CResp.ok (some [("name", "ada")]) ≠ CResp.ok none := by
  constructor
  · decide
  · decide

/-- C7 (amended): for a first delete whose freshly minted tag beats the
current slot and a second delete with a yet larger tag, both `DeleteRecord`
calls answer 200; the first carries the key''s previous live value (null iff
the key was absent or tombstoned — in particular both answers are null when
the key was absent) and the second always carries null, the shard''s 404
being mapped to 200/null by the routing tier. -/
theorem C7_second_delete_returns_null (s : Store) (table pk sk : String)
    (v1 v2 : Int) (o1 o2 : String)
    (h1 : ∀ cur, s (table, pk, sk) = some cur →
      tupGt v1 o1 cur.version cur.origin = true)
    (h2 : tupGt v2 o2 v1 o1 = true) :
    (deleteViaCoordinator s table pk sk v1 o1).1 =
      CResp.ok (Store.get s table pk sk) ∧
    (deleteViaCoordinator
        (deleteViaCoordinator s table pk sk v1 o1).2 table pk sk v2 o2).1 =
      CResp.ok none := by
  have hstep : (deleteViaCoordinator s table pk sk v1 o1).2
      = s.upd (table, pk, sk) ⟨[], v1, o1, true⟩ := by
    rw [deleteViaCoordinator, deleteLeader]
    cases hc : s (table, pk, sk) with
    | none => simp [publishOr503, Store.delete, hc]
    | some cur =>
      rw [publishOr503]
      simp only [Store.delete, hc, h1 cur hc, if_true]
      by_cases hd : cur.deleted <;> simp [hd]
  refine ⟨?_, ?_⟩
  · rw [deleteViaCoordinator, deleteLeader, publishOr503]
    cases hc : s (table, pk, sk) with
    | none => simp [Store.delete, hc, delete_record_map, Store.get]
    | some cur =>
      simp only [Store.delete, hc, h1 cur hc, if_true]
      by_cases hd : cur.deleted <;>
        simp [hd, delete_record_map, Store.get, hc]
  · rw [hstep, deleteViaCoordinator, deleteLeader, publishOr503]
    have hupd : (s.upd (table, pk, sk) ⟨[], v1, o1, true⟩) (table, pk, sk)
        = some ⟨[], v1, o1, true⟩ := by simp [Store.upd]
    simp [Store.delete, hupd, h2, delete_record_map]

theorem C7_second_delete_returns_null_witness :
    (deleteViaCoordinator Store.empty "t" "p" "s" 1 "a").1 =
      CResp.ok (Store.get Store.empty "t" "p" "s") ∧
    (deleteViaCoordinator
        (deleteViaCoordinator Store.empty "t" "p" "s" 1 "a").2
        "t" "p" "s" 2 "a").1 = CResp.ok none :=
  C7_second_delete_returns_null Store.empty "t" "p" "s" 1 2 "a" "a"
    (fun cur h => by cases h) (by decide)

/-! ## Consistent hash ring (`src/apps/coordinator/app/ring.py`)

`_hash_to_int` is SHA-256 of the UTF-8 string read as a 256-bit integer; it
enters the embedding as an abstract function `H : String → Nat`, which is what
the spec itself quantifies over ("H(key)").  `_ring : Dict[int, RingNode]` is
an association list in insertion order (Python dict assignment replaces in
place or appends; `del` removes the key), and `_sorted_keys` is kept verbatim.
`RingNode` only wraps the url, so nodes are plain strings.  `list.sort()` is
modelled by insertion sort (same contents, ascending).  Python indexing
`self._ring[key]` is `assocFind` (a `KeyError` shows up as `none`). -/

/-- `bisect.bisect` (= `bisect_right`) on an ascending list: the insertion
point after any entries equal to `x`. -/
def bisectRight (l : List Nat) (x : Nat) : Nat :=
  (l.takeWhile (fun k => decide (k ≤ x))).length

/-- `bisect.bisect_left` on an ascending list. -/
def bisectLeft (l : List Nat) (x : Nat) : Nat :=
  (l.takeWhile (fun k => decide (k < x))).length

/-- State of `ConsistentHashRing`. -/
structure RingState where
  replicas : Nat
  ring : List (Nat × String)
  sortedKeys : List Nat
  deriving DecidableEq, Repr

/-- `ConsistentHashRing(replicas)`. -/
def RingState.emptyRing (replicas : Nat) : RingState := ⟨replicas, [], []⟩

/-- Virtual-node position `_hash_to_int(f"{url}#{i}")`. -/
def vnodeKey (H : String → Nat) (url : String) (i : Nat) : Nat :=
  H (url ++ "#" ++ toString i)

/-- The `replicas` virtual-node positions of a url, in loop order. -/
def vnodeKeys (H : String → Nat) (url : String) (n : Nat) : List Nat :=
  (List.range n).map (vnodeKey H url)

/-- Dict lookup `self._ring[k]` (first entry with that key). -/
def assocFind (l : List (Nat × String)) (k : Nat) : Option String :=
  (l.find? (fun p => decide (p.1 = k))).map Prod.snd

/-- Dict membership `k in self._ring`. -/
def assocHas (l : List (Nat × String)) (k : Nat) : Bool :=
  l.any (fun p => decide (p.1 = k))

/-- Dict assignment `self._ring[k] = node`: replaces in place, else appends. -/
def assocSet (l : List (Nat × String)) (k : Nat) (v : String) : List (Nat × String) :=
  if assocHas l k then l.map (fun p => if p.1 = k then (k, v) else p)
  else l ++ [(k, v)]

/-- Dict deletion `del self._ring[k]`. -/
def assocDel (l : List (Nat × String)) (k : Nat) : List (Nat × String) :=
  l.filter (fun p => decide (p.1 ≠ k))

/-- `any(n.url == node.url for n in self._ring.values())`. -/
def RingState.containsUrl (R : RingState) (url : String) : Bool :=
  R.ring.any (fun p => decide (p.2 = url))

/-- One step of `ConsistentHashRing.remove`: `bisect_left` into the sorted
keys and pop the index when it holds exactly `k`. -/
def bisectPop (l : List Nat) (k : Nat) : List Nat :=
  let idx := bisectLeft l k
  if l[idx]? = some k then l.eraseIdx idx else l

/-- `ConsistentHashRing.remove(node_url)`: collect the url''s virtual-node
positions present in the dict, then delete each from the dict and pop it
from the sorted keys. -/
def RingState.removeUrl (H : String → Nat) (R : RingState) (url : String) : RingState :=
  let toRemove := (vnodeKeys H url R.replicas).filter (fun k => assocHas R.ring k)
  toRemove.foldl
    (fun st k => ⟨st.replicas, assocDel st.ring k, bisectPop st.sortedKeys k⟩) R

/-- `ConsistentHashRing.add(node)`: remove the url first when already present,
then insert the virtual nodes and re-sort the key list. -/
def RingState.add (H : String → Nat) (R : RingState) (url : String) : RingState :=
  let R1 := if R.containsUrl url then R.removeUrl H url else R
  let ks := vnodeKeys H url R1.replicas
  ⟨R1.replicas, ks.foldl (fun r k => assocSet r k url) R1.ring,
    List.insertionSort (· ≤ ·) (R1.sortedKeys ++ ks)⟩

/-- `ConsistentHashRing.get(key)`: `None` on an empty ring, else the node at
`_sorted_keys[bisect.bisect(_sorted_keys, h) % len(_sorted_keys)]`. -/
def RingState.get (H : String → Nat) (R : RingState) (key : String) : Option String :=
  if R.sortedKeys.isEmpty then none
  else
    let h := H key
    let idx := bisectRight R.sortedKeys h % R.sortedKeys.length
    assocFind R.ring (R.sortedKeys.getD idx 0)

/-- The smallest position *strictly greater* than `h`, wrapping to the first
(smallest) position; what the code''s `bisect_right` lookup lands on. -/
def nextPosGt (l : List Nat) (h : Nat) : Nat :=
  match l.find? (fun q => decide (h < q)) with
  | some q => q
  | none => l.getD 0 0

/-- Modelled from the spec: "returns the shard at the smallest virtual-node
position ≥ H(key), wrapping at the end of the hash space" — the owner at the
smallest position *greater than or equal to* `H(key)`, for comparison with
the implementation''s `RingState.get`. -/
def specOwnerGE (H : String → Nat) (R : RingState) (key : String) : Option String :=
  if R.sortedKeys.isEmpty then none
  else
    let p :=
      match R.sortedKeys.find? (fun q => decide (H key ≤ q)) with
      | some q => q
      | none => R.sortedKeys.getD 0 0
    assocFind R.ring p

/-- Characterisation of `bisect_right` on a sorted list: when it lands inside
the list, the entry there is the first one strictly above `h`; when it lands
at the end, every entry is ≤ `h`. -/
theorem bisectRight_spec (l : List Nat) (hs : List.Sorted (· ≤ ·) l) (h : Nat) :
    (bisectRight l h < l.length →
      l.find? (fun q => decide (h < q)) = l[bisectRight l h]?) ∧
    (bisectRight l h = l.length → ∀ x ∈ l, x ≤ h) := by
  induction l with
  | nil =>
    exact ⟨fun hx => absurd hx (by simp [bisectRight]),
      fun _ x hx => absurd hx (by simp)⟩
  | cons a t ih =>
    have hs' := hs.of_cons
    by_cases hah : a ≤ h
    · have hbr : bisectRight (a :: t) h = bisectRight t h + 1 := by
        simp [bisectRight, List.takeWhile_cons, hah]
      have hnlt : ¬ h < a := not_lt.mpr hah
      have hfind : List.find? (fun q => decide (h < q)) (a :: t) =
          List.find? (fun q => decide (h < q)) t := by
        simp [List.find?_cons, hnlt]
      constructor
      · intro hlt
        rw [hbr] at hlt ⊢
        rw [hfind, List.getElem?_cons_succ]
        exact (ih hs').1 (by simpa using hlt)
      · intro heq x hx
        rw [hbr] at heq
        have heq' : bisectRight t h = t.length := by simpa using heq
        rcases List.mem_cons.mp hx with rfl | hx
        · exact hah
        · exact (ih hs').2 heq' x hx
    · have hha : h < a := lt_of_not_le hah
      have hbr : bisectRight (a :: t) h = 0 := by
        simp [bisectRight, List.takeWhile_cons, hah]
      constructor
      · intro _
        rw [hbr]
        simp [List.find?_cons, hha]
      · intro heq
        rw [hbr] at heq
        exact absurd heq.symm (by simp)

/-- C3 (amended): `get` returns `None` iff the ring is empty, and on a
non-empty ring it returns the (present) shard whose virtual node sits at the
smallest position *strictly greater* than `H(key)`, wrapping past the end of
the hash space to the smallest position.  (The implementation uses
`bisect.bisect` = `bisect_right`, so a virtual node lying exactly at `H(key)`
is skipped — the spec''s "≥" reading only agrees when `H(key)` is not itself a
virtual-node position.)  Hypotheses: the sorted-key list is sorted and every
listed position is present in the dict — the invariants `add`/`remove`
maintain. -/
theorem C3_get_none_iff_empty_and_strict_successor (H : String → Nat)
    (R : RingState) (key : String)
    (hs : List.Sorted (· ≤ ·) R.sortedKeys)
    (hmem : ∀ k ∈ R.sortedKeys, (assocFind R.ring k).isSome) :
    (RingState.get H R key = none ↔ R.sortedKeys = []) ∧
    (R.sortedKeys ≠ [] →
      RingState.get H R key = assocFind R.ring (nextPosGt R.sortedKeys (H key)) ∧
      (RingState.get H R key).isSome) := by
  by_cases hemp : R.sortedKeys = []
  · refine ⟨?_, fun hne => absurd hemp hne⟩
    rw [RingState.get]
    simp [hemp]
  · have hlen : 0 < R.sortedKeys.length := List.length_pos.mpr hemp
    have hemp' : R.sortedKeys.isEmpty = false := by
      cases hl : R.sortedKeys with
      | nil => exact absurd hl hemp
      | cons a t => simp [hl]
    have hble : bisectRight R.sortedKeys (H key) ≤ R.sortedKeys.length :=
      (List.takeWhile_sublist _).length_le
    have hmain : RingState.get H R key =
        assocFind R.ring (nextPosGt R.sortedKeys (H key)) ∧
        (RingState.get H R key).isSome := by
      rw [RingState.get, if_neg (by simp [hemp'])]
      dsimp only
      rcases lt_or_eq_of_le hble with hblt | hbeq
      · have hidx : bisectRight R.sortedKeys (H key) % R.sortedKeys.length =
            bisectRight R.sortedKeys (H key) := Nat.mod_eq_of_lt hblt
        have hfind := (bisectRight_spec R.sortedKeys hs (H key)).1 hblt
        have hget : R.sortedKeys.getD (bisectRight R.sortedKeys (H key)) 0 =
            R.sortedKeys[bisectRight R.sortedKeys (H key)] :=
          List.getD_eq_getElem _ _ hblt
        have hnext : nextPosGt R.sortedKeys (H key) =
            R.sortedKeys[bisectRight R.sortedKeys (H key)] := by
          rw [nextPosGt, hfind, List.getElem?_eq_getElem hblt]
        rw [hidx, hget, hnext]
        exact ⟨rfl, hmem _ (List.getElem_mem hblt)⟩
      · have hall := (bisectRight_spec R.sortedKeys hs (H key)).2 hbeq
        have hfind : R.sortedKeys.find? (fun q => decide (H key < q)) = none := by
          rw [List.find?_eq_none]
          intro x hx
          simp [not_lt.mpr (hall x hx)]
        have hidx : bisectRight R.sortedKeys (H key) % R.sortedKeys.length = 0 := by
          rw [hbeq, Nat.mod_self]
        have hnext : nextPosGt R.sortedKeys (H key) = R.sortedKeys.getD 0 0 := by
          rw [nextPosGt, hfind]
        rw [hidx, hnext]
        refine ⟨rfl, ?_⟩
        have hget : R.sortedKeys.getD 0 0 = R.sortedKeys[0] :=
          List.getD_eq_getElem _ _ hlen
        rw [hget]
        exact hmem _ (List.getElem_mem hlen)
    refine ⟨⟨fun hn => ?_, fun h => absurd h hemp⟩, fun _ => hmain⟩
    rw [hn] at hmain
    exact absurd hmain.2 (by simp)

/-- Concrete hash for the C3 counterexample: the key "kk" hashes exactly onto
the virtual-node position of shard "a". -/
def c3H : String → Nat := fun s =>
  if s = "a#0" then 10 else if s = "b#0" then 20 else if s = "kk" then 10 else 0

/-- Two-shard ring with one virtual node each, built through `add`. -/
def c3R : RingState :=
  RingState.add c3H (RingState.add c3H (RingState.emptyRing 1) "a") "b"

/-- C3 counterexample: with `H("kk") = 10` landing exactly on shard "a"''s
virtual node, `get` skips it (`bisect_right`) and returns "b", whereas the
claimed smallest position ≥ `H(key)` is 10, owned by "a". -/
theorem C3_counterexample :
    RingState.get c3H c3R "kk" = some "b" ∧
    specOwnerGE c3H c3R "kk" = some "a" ∧
    RingState.get c3H c3R "kk" ≠ specOwnerGE c3H c3R "kk" := by
  refine ⟨?_, ?_, ?_⟩ <;> decide

theorem C3_get_none_iff_empty_and_strict_successor_witness :
    (List.Sorted (· ≤ ·) c3R.sortedKeys ∧
      ∀ k ∈ c3R.sortedKeys, (assocFind c3R.ring k).isSome) ∧
    ((RingState.get c3H c3R "q" = none ↔ c3R.sortedKeys = []) ∧
      (c3R.sortedKeys ≠ [] →
        RingState.get c3H c3R "q" =
          assocFind c3R.ring (nextPosGt c3R.sortedKeys (c3H "q")) ∧
        (RingState.get c3H c3R "q").isSome)) :=
  ⟨⟨by decide, by decide⟩,
    C3_get_none_iff_empty_and_strict_successor c3H c3R "q"
      (by decide) (by decide)⟩

theorem bisectLeft_cons (a : Nat) (t : List Nat) (k : Nat) :
    bisectLeft (a :: t) k = if a < k then bisectLeft t k + 1 else 0 := by
  by_cases h : a < k <;> simp [bisectLeft, List.takeWhile_cons, h]

/-- On a sorted list, the `bisect_left`-and-pop step of `remove` is exactly
`List.erase`. -/
theorem bisectPop_eq_erase (l : List Nat) (hs : List.Sorted (· ≤ ·) l) (k : Nat) :
    bisectPop l k = l.erase k := by
  induction l with
  | nil => rfl
  | cons a t ih =>
    have hs' := hs.of_cons
    by_cases hak : a < k
    · have hne : (a == k) = false := by simp [Nat.ne_of_lt hak]
      rw [bisectPop]
      rw [bisectLeft_cons, if_pos hak, List.getElem?_cons_succ]
      rw [List.erase_cons, hne]
      have ihe := ih hs'
      rw [bisectPop] at ihe
      by_cases hsome : t[bisectLeft t k]? = some k
      · rw [if_pos hsome, List.eraseIdx_cons_succ]
        rw [if_pos hsome] at ihe
        rw [ihe]
        simp
      · rw [if_neg hsome]
        rw [if_neg hsome] at ihe
        rw [← ihe]
        simp
    · by_cases hak2 : a = k
      · subst hak2
        rw [bisectPop]
        rw [bisectLeft_cons, if_neg hak]
        simp [List.erase_cons_head]
      · have hka : k < a := lt_of_le_of_ne (le_of_not_lt hak) (Ne.symm hak2)
        have hnm : k ∉ a :: t := by
          intro hmem
          rcases List.mem_cons.mp hmem with rfl | hmem
          · exact hak2 rfl
          · have := (List.sorted_cons.mp hs).1 k hmem
            exact absurd hka (not_lt.mpr this)
        rw [bisectPop]
        rw [bisectLeft_cons, if_neg hak]
        have hhead : (a :: t)[0]? = some a := List.getElem?_cons_zero
        rw [hhead, if_neg (by simp [hak2])]
        rw [List.erase_of_not_mem hnm]

theorem sorted_erase {l : List Nat} (hs : List.Sorted (· ≤ ·) l) (k : Nat) :
    List.Sorted (· ≤ ·) (l.erase k) :=
  List.Pairwise.sublist (List.erase_sublist k l) hs

theorem foldl_bisectPop_eq_foldl_erase (ks : List Nat) (l : List Nat)
    (hs : List.Sorted (· ≤ ·) l) :
    List.foldl bisectPop l ks = List.foldl (fun acc k => acc.erase k) l ks := by
  induction ks generalizing l with
  | nil => rfl
  | cons k ks ih =>
    rw [List.foldl_cons, List.foldl_cons, bisectPop_eq_erase l hs k]
    exact ih _ (sorted_erase hs k)

theorem foldl_erase_sorted (ks : List Nat) (l : List Nat)
    (hs : List.Sorted (· ≤ ·) l) :
    List.Sorted (· ≤ ·) (List.foldl (fun acc k => acc.erase k) l ks) := by
  induction ks generalizing l with
  | nil => exact hs
  | cons k ks ih => exact ih _ (sorted_erase hs k)

theorem foldl_erase_perm (ks : List Nat) {l1 l2 : List Nat} (h : l1.Perm l2) :
    (List.foldl (fun acc k => acc.erase k) l1 ks).Perm
      (List.foldl (fun acc k => acc.erase k) l2 ks) := by
  induction ks generalizing l1 l2 with
  | nil => exact h
  | cons k ks ih => exact ih (h.erase k)

theorem foldl_erase_append (ks S : List Nat) (hf : ∀ k ∈ ks, k ∉ S) :
    List.foldl (fun acc k => acc.erase k) (S ++ ks) ks = S := by
  induction ks with
  | nil => simp
  | cons k ks ih =>
    rw [List.foldl_cons,
      List.erase_append_right _ (hf k (List.mem_cons_self k ks)),
      List.erase_cons_head]
    exact ih (fun k2 hk2 => hf k2 (List.mem_cons_of_mem k hk2))

/-- Inserting pairwise-fresh keys into the dict appends them in order. -/
theorem foldl_assocSet_fresh (url : String) (ks : List Nat) :
    ∀ r : List (Nat × String), ks.Nodup → (∀ k ∈ ks, ∀ p ∈ r, p.1 ≠ k) →
    List.foldl (fun r k => assocSet r k url) r ks =
      r ++ ks.map (fun k => (k, url)) := by
  induction ks with
  | nil => intro r _ _; simp
  | cons k ks ih =>
    intro r hnd hf
    have hhas : assocHas r k = false := by
      cases hx : assocHas r k with
      | false => rfl
      | true =>
        obtain ⟨p, hp, hpk⟩ := List.any_eq_true.mp hx
        exact absurd (of_decide_eq_true hpk)
          (hf k (List.mem_cons_self k ks) p hp)
    rw [List.foldl_cons, assocSet, hhas,
      if_neg (show ¬ (false = true) by simp)]
    rw [ih (r ++ [(k, url)]) (List.nodup_cons.mp hnd).2 ?_]
    · simp
    · intro k2 hk2 p hp
      rcases List.mem_append.mp hp with hp | hp
      · exact hf k2 (List.mem_cons_of_mem k hk2) p hp
      · rcases List.mem_singleton.mp hp with rfl
        intro hx
        have hx2 : k = k2 := hx
        apply (List.nodup_cons.mp hnd).1
        rw [hx2]
        exact hk2

/-- Deleting pairwise-fresh appended keys restores the original dict. -/
theorem foldl_assocDel_fresh (url : String) (ks : List Nat) :
    ∀ r : List (Nat × String), ks.Nodup → (∀ k ∈ ks, ∀ p ∈ r, p.1 ≠ k) →
    List.foldl assocDel (r ++ ks.map (fun k => (k, url))) ks = r := by
  induction ks with
  | nil => intro r _ _; simp
  | cons k ks ih =>
    intro r hnd hf
    have hstep : assocDel (r ++ (k, url) :: ks.map (fun k => (k, url))) k =
        r ++ ks.map (fun k => (k, url)) := by
      rw [assocDel, List.filter_append]
      have h1 : r.filter (fun p => decide (p.1 ≠ k)) = r := by
        rw [List.filter_eq_self]
        intro p hp
        exact decide_eq_true (hf k (List.mem_cons_self k ks) p hp)
      have h2 : ((k, url) :: ks.map (fun k => (k, url))).filter
          (fun p => decide (p.1 ≠ k)) = ks.map (fun k => (k, url)) := by
        have hc : (decide ((k, url).1 ≠ k)) = false := by simp
        rw [List.filter_cons, hc, if_neg (show ¬ (false = true) by simp)]
        rw [List.filter_eq_self]
        intro p hp
        obtain ⟨k2, hk2, rfl⟩ := List.mem_map.mp hp
        have hne2 : k2 ≠ k := by
          intro hx
          rw [hx] at hk2
          exact (List.nodup_cons.mp hnd).1 hk2
        exact decide_eq_true hne2
      rw [h1, h2]
    rw [List.foldl_cons]
    simp only [List.map_cons] at hstep ⊢
    rw [hstep]
    exact ih r (List.nodup_cons.mp hnd).2
      (fun k2 hk2 p hp => hf k2 (List.mem_cons_of_mem k hk2) p hp)

/-- The state fold inside `remove` acts componentwise. -/
theorem removeUrl_fold_split (ks : List Nat) (reps : Nat)
    (r : List (Nat × String)) (s : List Nat) :
    List.foldl
        (fun st k => RingState.mk st.replicas (assocDel st.ring k)
          (bisectPop st.sortedKeys k)) ⟨reps, r, s⟩ ks =
      ⟨reps, List.foldl assocDel r ks, List.foldl bisectPop s ks⟩ := by
  induction ks generalizing r s with
  | nil => rfl
  | cons k ks ih => rw [List.foldl_cons, List.foldl_cons, List.foldl_cons]; exact ih _ _

/-- C6: `get` is a pure function of the ring state and the key (it reads no
other input, so equal states give equal answers), and adding a shard that is
not present and then removing it restores the ring state exactly, hence
`get` of every key equals its pre-add result.  Hypotheses: the shard''s
virtual-node positions are pairwise distinct and collide neither with the
dict keys nor with the sorted-key list (SHA-256 collision freedom among the
distinct involved strings), the url is not in the ring, and the sorted-key
list is sorted. -/
theorem C6_get_pure_and_add_remove_roundtrip (H : String → Nat) (R : RingState)
    (url : String)
    (hurl : R.containsUrl url = false)
    (hnd : (vnodeKeys H url R.replicas).Nodup)
    (hfr : ∀ k ∈ vnodeKeys H url R.replicas, ∀ p ∈ R.ring, p.1 ≠ k)
    (hfs : ∀ k ∈ vnodeKeys H url R.replicas, k ∉ R.sortedKeys)
    (hs : List.Sorted (· ≤ ·) R.sortedKeys) :
    (∀ R1 R2 : RingState, R1 = R2 →
      ∀ key, RingState.get H R1 key = RingState.get H R2 key) ∧
    RingState.removeUrl H (RingState.add H R url) url = R ∧
    (∀ key, RingState.get H (RingState.removeUrl H (RingState.add H R url) url) key =
      RingState.get H R key) := by
  obtain ⟨reps, ring0, sk0⟩ := R
  simp only at hnd hfr hfs hs hurl
  have hadd : RingState.add H ⟨reps, ring0, sk0⟩ url =
      ⟨reps, ring0 ++ (vnodeKeys H url reps).map (fun k => (k, url)),
        List.insertionSort (· ≤ ·) (sk0 ++ vnodeKeys H url reps)⟩ := by
    rw [RingState.add, if_neg (by simp [hurl])]
    dsimp only
    rw [foldl_assocSet_fresh url _ ring0 hnd hfr]
  have hfilt : (vnodeKeys H url reps).filter
      (fun k => assocHas (ring0 ++ (vnodeKeys H url reps).map (fun k => (k, url))) k) =
      vnodeKeys H url reps := by
    rw [List.filter_eq_self]
    intro k hk
    rw [assocHas, List.any_eq_true]
    exact ⟨(k, url), List.mem_append_right _ (List.mem_map.mpr ⟨k, hk, rfl⟩),
      by simp⟩
  have hsk2 : List.Sorted (· ≤ ·)
      (List.insertionSort (· ≤ ·) (sk0 ++ vnodeKeys H url reps)) :=
    List.sorted_insertionSort _ _
  have hring : List.foldl assocDel
      (ring0 ++ (vnodeKeys H url reps).map (fun k => (k, url)))
      (vnodeKeys H url reps) = ring0 :=
    foldl_assocDel_fresh url _ ring0 hnd hfr
  have hsorted : List.foldl bisectPop
      (List.insertionSort (· ≤ ·) (sk0 ++ vnodeKeys H url reps))
      (vnodeKeys H url reps) = sk0 := by
    rw [foldl_bisectPop_eq_foldl_erase _ _ hsk2]
    have hperm : (List.foldl (fun acc k => acc.erase k)
        (List.insertionSort (· ≤ ·) (sk0 ++ vnodeKeys H url reps))
        (vnodeKeys H url reps)).Perm sk0 := by
      have h1 := foldl_erase_perm (vnodeKeys H url reps)
        (List.perm_insertionSort (· ≤ ·) (sk0 ++ vnodeKeys H url reps))
      rw [foldl_erase_append _ _ hfs] at h1
      exact h1
    exact List.eq_of_perm_of_sorted hperm
      (foldl_erase_sorted _ _ hsk2) hs
  have hmain : RingState.removeUrl H
      (RingState.add H ⟨reps, ring0, sk0⟩ url) url = ⟨reps, ring0, sk0⟩ := by
    rw [hadd, RingState.removeUrl]
    dsimp only
    rw [hfilt, removeUrl_fold_split, hring, hsorted]
  exact ⟨fun R1 R2 h key => by rw [h], hmain, fun key => by rw [hmain]⟩

/-- Concrete hash for the C6 witness. -/
def c6H : String → Nat := fun s =>
  if s = "a#0" then 10 else if s = "b#0" then 20 else 0

/-- One-shard ring for the C6 witness. -/
def c6R : RingState := RingState.add c6H (RingState.emptyRing 1) "a"

theorem C6_get_pure_and_add_remove_roundtrip_witness :
    (c6R.containsUrl "b" = false ∧
      (vnodeKeys c6H "b" c6R.replicas).Nodup ∧
      (∀ k ∈ vnodeKeys c6H "b" c6R.replicas, ∀ p ∈ c6R.ring, p.1 ≠ k) ∧
      (∀ k ∈ vnodeKeys c6H "b" c6R.replicas, k ∉ c6R.sortedKeys) ∧
      List.Sorted (· ≤ ·) c6R.sortedKeys) ∧
    ((∀ R1 R2 : RingState, R1 = R2 →
        ∀ key, RingState.get c6H R1 key = RingState.get c6H R2 key) ∧
      RingState.removeUrl c6H (RingState.add c6H c6R "b") "b" = c6R ∧
      (∀ key,
        RingState.get c6H (RingState.removeUrl c6H (RingState.add c6H c6R "b") "b") key =
          RingState.get c6H c6R key)) :=
  ⟨⟨by decide, by decide, by decide, by decide, by decide⟩,
    C6_get_pure_and_add_remove_roundtrip c6H c6R "b"
      (by decide) (by decide) (by decide) (by decide) (by decide)⟩

/-! ## Replica registry (`src/apps/coordinator/app/storage.py`, `ReplicaRegistry`)

`_replicas : Dict[str, Dict[str, ReplicaInfo]]` and `_leader_url : Dict[str, str]`
are modelled as functions into `Option` (only pointwise access matters; the
round-robin cursor `_rr_idx` is not consulted by `register` and is omitted).
`time.time()` enters as the argument `now`; the two reads of the clock inside
one `register` call are identified.  Python truthiness matters: `if leader:`
and `if lurl ...:` are false both for `None` and for the empty string (a
replica registering with `replica_url="/"` is stored under the stripped url
`""`). -/

/-- Python `s.rstrip("/")`. -/
def rstripSlash (s : String) : String :=
  ⟨(s.data.reverse.dropWhile (fun c => c = '/')).reverse⟩

/-- `ReplicaInfo` (pydantic model, `src/apps/coordinator/app/models.py`). -/
structure RInfo where
  shard_name : String
  replica_url : String
  replica_id : Option String
  role : String
  last_seen : Int
  deriving DecidableEq, Repr

/-- `ReplicaRegistry` state. -/
structure RegState where
  ttl : Int
  replicas : String → String → Option RInfo
  leaderUrl : String → Option String

/-- `ReplicaRegistry(ttl_sec)`. -/
def RegState.emptyReg (ttl : Int) : RegState :=
  ⟨ttl, fun _ _ => none, fun _ => none⟩

/-- Write one replica record: `self._replicas[shard][url] = info`. -/
def RegState.setRep (st : RegState) (shard url : String) (i : RInfo) : RegState :=
  { st with replicas := fun s u =>
      if s = shard ∧ u = url then some i else st.replicas s u }

/-- Write or pop the leader url of one shard. -/
def RegState.setLeader (st : RegState) (shard : String) (v : Option String) : RegState :=
  { st with leaderUrl := fun s => if s = shard then v else st.leaderUrl s }

/-- `ReplicaRegistry._is_active`: record present and `now - last_seen <= ttl`. -/
def RegState.isActive (st : RegState) (now : Int) (shard url : String) : Bool :=
  match st.replicas shard url with
  | none => false
  | some i => decide (now - i.last_seen ≤ st.ttl)

/-- Python truthiness of an optional string (`if leader:`): false for `None`
and for the empty string. -/
def truthy : Option String → Bool
  | none => false
  | some s => !(s == "")

/-- Result of `register`: `(assigned_role, leader_url)` plus the new state. -/
structure RegOut where
  role : String
  leader : Option String
  st : RegState

/-- `ReplicaRegistry.register`, line by line: canonicalize the url, lazily
expire a stale (truthy, inactive) recorded leader, make the registrant leader
when none is left, keep an already-leading registrant leader, persist the
record, and re-assert the leader entry''s role. -/
def RegState.register (st0 : RegState) (now : Int) (shard url0 : String)
    (rid : Option String) (reqRole : String) : RegOut :=
  let url := rstripSlash url0
  let prev := st0.replicas shard url
  let leader0 := st0.leaderUrl shard
  let popped := truthy leader0 && !(st0.isActive now shard (leader0.getD ""))
  let leader := if popped then none else leader0
  let st1 := if popped then st0.setLeader shard none else st0
  let role1 := if leader = none then "leader" else "follower"
  let st2 := if leader = none then st1.setLeader shard (some url) else st1
  let role2 := if reqRole = "leader" ∧ leader = none then "leader" else role1
  let st3 :=
    if reqRole = "leader" ∧ leader = none then st2.setLeader shard (some url)
    else st2
  let role3 :=
    match prev with
    | some p =>
      if p.role = "leader" ∧ st3.leaderUrl shard = some url then "leader"
      else role2
    | none => role2
  let info : RInfo := ⟨shard, url, rid, role3, now⟩
  let st4 := st3.setRep shard url info
  let st5 :=
    match st4.leaderUrl shard with
    | some lurl =>
      if lurl ≠ "" then
        match st4.replicas shard lurl with
        | some li => st4.setRep shard lurl { li with role := "leader" }
        | none => st4
      else st4
    | none => st4
  ⟨role3, st5.leaderUrl shard, st5⟩

/-- The leader that `register` treats as still standing: a recorded leader
survives when its url is empty (Python truthiness skips the staleness check)
or its record is within TTL; otherwise it is expired. -/
def RegState.effLeader (st : RegState) (now : Int) (shard : String) : Option String :=
  match st.leaderUrl shard with
  | none => none
  | some L =>
    if L ≠ "" ∧ st.isActive now shard L = false then none else some L

/-- Registry invariant: the recorded leader of a shard has a stored record
whose role is "leader" (established by the fix-up at the end of every
`register`). -/
def RegInv (st : RegState) : Prop :=
  ∀ shard L, st.leaderUrl shard = some L →
    ∃ i, st.replicas shard L = some i ∧ i.role = "leader"

theorem register_role_eq (st : RegState) (now : Int) (shard url0 : String)
    (rid : Option String) (reqRole : String) (hinv : RegInv st) :
    (st.register now shard url0 rid reqRole).role =
      if st.effLeader now shard = none ∨
          st.effLeader now shard = some (rstripSlash url0)
      then "leader" else "follower" := by
  rw [RegState.register, RegState.effLeader]
  dsimp only
  cases hL : st.leaderUrl shard with
  | none =>
    cases hprev : st.replicas shard (rstripSlash url0) with
    | none => simp [truthy, RegState.setLeader]
    | some p => simp [truthy, RegState.setLeader]
  | some L =>
    by_cases hLe : L = ""
    · subst hLe
      by_cases hu : rstripSlash url0 = ""
      · obtain ⟨i, hi, hir⟩ := hinv shard "" hL
        rw [hu]
        rw [hi]
        simp [truthy, hir, hL]
      · cases hprev : st.replicas shard (rstripSlash url0) with
        | none => simp [truthy, Ne.symm hu, hL]
        | some p => simp [truthy, Ne.symm hu, hL, hu]
    · by_cases hact : st.isActive now shard L = true
      · by_cases hLu : L = rstripSlash url0
        · obtain ⟨i, hi, hir⟩ := hinv shard L hL
          rw [← hLu]
          rw [hi]
          simp [truthy, hLe, hact, hir, hL]
        · cases hprev : st.replicas shard (rstripSlash url0) with
          | none => simp [truthy, hLe, hact, hLu, hL]
          | some p => simp [truthy, hLe, hact, hLu, hL]
      · have hact2 : st.isActive now shard L = false := by
          cases hx : st.isActive now shard L with
          | false => rfl
          | true => exact absurd hx hact
        cases hprev : st.replicas shard (rstripSlash url0) with
        | none => simp [truthy, hLe, hact2, RegState.setLeader]
        | some p => simp [truthy, hLe, hact2, RegState.setLeader]

/-- C4 (amended): under the registry invariant (the recorded leader''s record
exists and is marked "leader"), `register` assigns "leader" iff the shard has
no *effective* leader or the registrant is itself the recorded effective
leader, and assigns "follower" otherwise.  The effective leader differs from
the claim''s "active leader" in exactly one way: a recorded leader with the
*empty* url (a replica that registered with a slashes-only `replica_url`) is
never expired, because Python''s `if leader:` truthiness skips the staleness
check — so such an incumbent blocks the claimed TTL handover. -/
theorem C4_register_leader_iff (st : RegState) (now : Int) (shard url0 : String)
    (rid : Option String) (reqRole : String) (hinv : RegInv st) :
    ((st.register now shard url0 rid reqRole).role = "leader" ↔
      (st.effLeader now shard = none ∨
        st.effLeader now shard = some (rstripSlash url0))) ∧
    ((st.register now shard url0 rid reqRole).role = "leader" ∨
      (st.register now shard url0 rid reqRole).role = "follower") := by
  have h := register_role_eq st now shard url0 rid reqRole hinv
  by_cases hc : st.effLeader now shard = none ∨
      st.effLeader now shard = some (rstripSlash url0)
  · rw [h, if_pos hc]
    exact ⟨⟨fun _ => hc, fun _ => rfl⟩, Or.inl rfl⟩
  · rw [h, if_neg hc]
    exact ⟨⟨fun hx => absurd hx (by decide), fun hx => absurd hx hc⟩,
      Or.inr rfl⟩

/-- Registry state after a replica registered with `replica_url = "/"`
(stored under the stripped url `""`) became leader of shard "s" at time 0. -/
def c4st : RegState := ((RegState.emptyReg 30).register 0 "s" "/" none "auto").st

/-- C4 counterexample: the recorded leader of shard "s" is the empty url,
its record has been silent for 1000 > TTL = 30 time units, and yet a later
`register` call from another replica that even requests the leader role is
assigned "follower": the stale incumbent is never expired because
`if leader:` is false for the empty string, refuting the claimed TTL
handover for this state. -/
theorem C4_counterexample :
    c4st.leaderUrl "s" = some "" ∧
    c4st.isActive 1000 "s" "" = false ∧
    (c4st.register 1000 "s" "u2" none "leader").role = "follower" := by
  refine ⟨?_, ?_, ?_⟩ <;> decide

theorem C4_register_leader_iff_witness :
    RegInv (RegState.emptyReg 30) ∧
    ((((RegState.emptyReg 30).register 0 "s" "u" none "auto").role = "leader" ↔
      ((RegState.emptyReg 30).effLeader 0 "s" = none ∨
        (RegState.emptyReg 30).effLeader 0 "s" = some (rstripSlash "u"))) ∧
      (((RegState.emptyReg 30).register 0 "s" "u" none "auto").role = "leader" ∨
        ((RegState.emptyReg 30).register 0 "s" "u" none "auto").role =
          "follower")) :=
  ⟨fun _ L h => absurd h (by simp [RegState.emptyReg]),
    C4_register_leader_iff (RegState.emptyReg 30) 0 "s" "u" none "auto"
      (fun _ L h => absurd h (by simp [RegState.emptyReg]))⟩

/-! ## Routing-tier read route (`src/apps/coordinator/app/main.py`,
`read_record`)

Downstream HTTP results enter as an abstract outcome type.  The flag
`_migration_in_progress` and the snapshot `_old_ring is not None` are set and
cleared together under the migration lock, so they enter as one `migration`
flag; `oldOwner` is the result of `_old_ring.get(pk)` (`none` when the
snapshotted ring is empty, making `_pick_shard_name_from_ring` raise 503);
`oldReplica` is `pick_read_replica` for the old shard (`none` makes
`_read_url` raise 503). -/

/-- Outcome of `GET /records` on one shard replica as seen by the routing
tier: a value, an explicit 404, another HTTP error (`raise_for_status`
raises), or a transport failure. -/
inductive ShardRead where
  | found (v : Val)
  | notFound
  | httpErr
  | netErr
  deriving DecidableEq, Repr

/-- `read_record` routing logic. -/
def read_record (primaryShard : String) (primary : ShardRead) (migration : Bool)
    (oldOwner : Option String) (oldReplica : Option String)
    (fallback : ShardRead) : CResp :=
  match primary with
  | .found v => .ok (some v)
  | .httpErr => .err 502
  | .netErr => .err 502
  | .notFound =>
    if migration then
      match oldOwner with
      | none => .err 503
      | some oldShard =>
        if oldShard ≠ primaryShard then
          match oldReplica with
          | none => .err 503
          | some _ =>
            match fallback with
            | .found v => .ok (some v)
            | .notFound => .ok none
            | .httpErr => .err 502
            | .netErr => .err 502
        else .ok none
    else .ok none

/-- C5 counterexample: primary says not-found while a migration is in
progress with an *empty* snapshotted old ring (the state produced when the
first shard ever registers and starts a migration): `_pick_shard_name_from_ring`
raises 503, so the response is 503 — not the claimed 200 with null value. -/
theorem C5_counterexample :
    read_record "s" .notFound true none none .notFound = .err 503 ∧
    CResp.err 503 ≠ CResp.ok none := by
  exact ⟨rfl, by decide⟩

/-- C5 (amended): on a primary not-found during a migration the routing tier
queries the old owner from the snapshotted pre-migration ring and serves its
value; when nothing is found anywhere *and the old-owner lookup path
succeeds* (an old ring with an owner, a distinct old shard with an active
replica, or no second lookup needed at all) the response is 200 with null
value; and no input ever produces a 404.  (When the old-ring owner cannot be
resolved or the old shard has no active replica, the code answers 503, and a
failed fallback request answers 502 — still never 404.) -/
theorem C5_read_fallback_and_null_record (ps : String) (primary : ShardRead)
    (migration : Bool) (oldOwner oldReplica : Option String)
    (fallback : ShardRead) :
    (∀ o u v, primary = .notFound → migration = true → oldOwner = some o →
      o ≠ ps → oldReplica = some u → fallback = .found v →
      read_record ps primary migration oldOwner oldReplica fallback =
        .ok (some v)) ∧
    (∀ o u, primary = .notFound → migration = true → oldOwner = some o →
      o ≠ ps → oldReplica = some u → fallback = .notFound →
      read_record ps primary migration oldOwner oldReplica fallback = .ok none) ∧
    (primary = .notFound → migration = true → oldOwner = some ps →
      read_record ps primary migration oldOwner oldReplica fallback = .ok none) ∧
    (primary = .notFound → migration = false →
      read_record ps primary migration oldOwner oldReplica fallback = .ok none) ∧
    read_record ps primary migration oldOwner oldReplica fallback ≠ .err 404 := by
  refine ⟨?_, ?_, ?_, ?_, ?_⟩
  · rintro o u v rfl rfl rfl ho rfl rfl
    simp [read_record, ho]
  · rintro o u rfl rfl rfl ho rfl rfl
    simp [read_record, ho]
  · rintro rfl rfl rfl
    simp [read_record]
  · rintro rfl rfl
    simp [read_record]
  · cases primary with
    | found v => simp [read_record]
    | httpErr => simp [read_record]
    | netErr => simp [read_record]
    | notFound =>
      cases migration with
      | false => simp [read_record]
      | true =>
        cases oldOwner with
        | none => simp [read_record]
        | some o =>
          by_cases ho : o ≠ ps
          · cases oldReplica with
            | none => simp [read_record, ho]
            | some u => cases fallback <;> simp [read_record, ho]
          · simp [read_record, ho]

theorem C5_read_fallback_and_null_record_witness :
    ((∀ o u v, ShardRead.notFound = ShardRead.notFound → true = true →
      (some "old" : Option String) = some o → o ≠ "s" →
      (some "r1" : Option String) = some u →
      ShardRead.found [("a", "1")] = ShardRead.found v →
      read_record "s" .notFound true (some "old") (some "r1")
        (.found [("a", "1")]) = .ok (some v)) ∧
    (∀ o u, ShardRead.notFound = ShardRead.notFound → true = true →
      (some "old" : Option String) = some o → o ≠ "s" →
      (some "r1" : Option String) = some u →
      ShardRead.found [("a", "1")] = ShardRead.notFound →
      read_record "s" .notFound true (some "old") (some "r1")
        (.found [("a", "1")]) = .ok none) ∧
    (ShardRead.notFound = ShardRead.notFound → true = true →
      (some "old" : Option String) = some "s" →
      read_record "s" .notFound true (some "old") (some "r1")
        (.found [("a", "1")]) = .ok none) ∧
    (ShardRead.notFound = ShardRead.notFound → true = false →
      read_record "s" .notFound true (some "old") (some "r1")
        (.found [("a", "1")]) = .ok none) ∧
    read_record "s" .notFound true (some "old") (some "r1")
      (.found [("a", "1")]) ≠ .err 404) :=
  C5_read_fallback_and_null_record "s" .notFound true (some "old")
    (some "r1") (.found [("a", "1")])

/-! ## Table registry (`src/apps/coordinator/app/storage.py`, `TableRegistry`,
and `POST /tables` in `src/apps/coordinator/app/main.py`) -/

/-- `TableDef` (pydantic model). -/
structure TableDef where
  table_name : String
  partition_key : String
  sort_key : String
  deriving DecidableEq, Repr

/-- `TableRegistry._tables` as a map from table name to definition. -/
def TableReg := String → Option TableDef

/-- `TableRegistry()`. -/
def TableReg.emptyTables : TableReg := fun _ => none

/-- `TableRegistry.register` (= the whole `POST /tables` handler):
`self._tables[t.table_name] = t`, an unconditional dict assignment. -/
def TableReg.registerTable (reg : TableReg) (t : TableDef) : TableReg :=
  fun n => if n = t.table_name then some t else reg n

def c8a : TableDef := ⟨"users", "id", "ts"⟩

def c8b : TableDef := ⟨"users", "pk2", "sk2"⟩

/-- C8 counterexample: registering "users" twice with different definitions
leaves the *second* definition stored — the original registration is
overwritten, refuting immutability.  (`register_table` performs no existence
check; the handler is a plain dict upsert.) -/
theorem C8_counterexample :
    (TableReg.emptyTables.registerTable c8a).registerTable c8b "users" =
      some c8b ∧
    some c8b ≠ some c8a := by
  exact ⟨rfl, by decide⟩

/-- C8 (amended): `RegisterTable` is last-write-wins: after registering `t`
the stored definition under `t.table_name` is `t` (replacing any earlier
definition), and all other names are untouched; registration never fails. -/
theorem C8_register_table_overwrites (reg : TableReg) (t : TableDef) :
    (reg.registerTable t) t.table_name = some t ∧
    ∀ n, n ≠ t.table_name → (reg.registerTable t) n = reg n := by
  constructor
  · simp [TableReg.registerTable]
  · intro n hn
    simp [TableReg.registerTable, hn]

theorem C8_register_table_overwrites_witness :
    (TableReg.emptyTables.registerTable c8a) c8a.table_name = some c8a ∧
    (∀ n, n ≠ c8a.table_name →
      (TableReg.emptyTables.registerTable c8a) n = TableReg.emptyTables n) :=
  C8_register_table_overwrites TableReg.emptyTables c8a

/-! ## Routing-tier exists route (`src/apps/coordinator/app/main.py`,
`exists` and `_exists_call`) -/

/-- Outcome of `_exists_call` on one replica: a boolean, or any raised error
(transport failure, non-2xx status, or a malformed body). -/
inductive ECall where
  | ok (b : Bool)
  | err
  deriving DecidableEq, Repr

/-- The second-opinion loop: iterate over the active replicas, skip the
leader, return true on the first replica answering true, ignore errors and
false answers, and answer false after the loop. -/
def pollFollowers (leader : String) : List (String × ECall) → Bool
  | [] => false
  | (u, r) :: rest =>
    if u = leader then pollFollowers leader rest
    else
      match r with
      | .ok true => true
      | _ => pollFollowers leader rest

/-- `exists` route: 503 when the registry has no active leader; ask the
leader first and propagate any leader error as 503; a true answer is final;
on false, poll the other active replicas. -/
def existsRoute (leader : Option String) (leaderResp : ECall)
    (followers : List (String × ECall)) : Except Nat Bool :=
  match leader with
  | none => .error 503
  | some l =>
    match leaderResp with
    | .err => .error 503
    | .ok true => .ok true
    | .ok false => .ok (pollFollowers l followers)

theorem pollFollowers_eq_any (l : String) (fs : List (String × ECall)) :
    pollFollowers l fs =
      fs.any (fun p => decide (p.1 ≠ l) && decide (p.2 = ECall.ok true)) := by
  induction fs with
  | nil => rfl
  | cons p rest ih =>
    obtain ⟨u, r⟩ := p
    by_cases hu : u = l
    · simp [pollFollowers, hu, ih]
    · cases r with
      | err => simp [pollFollowers, hu, ih]
      | ok b =>
        cases b with
        | true => simp [pollFollowers, hu]
        | false => simp [pollFollowers, hu, ih]

/-- C9: if resolving or querying the leader fails the route answers 503 and
the answer does not depend on the followers (none is consulted); a true
leader answer is final; and on a false leader answer the result is true iff
some *other* active replica answers true, follower errors being ignored. -/
theorem C9_exists_leader_authoritative (leader : Option String)
    (leaderResp : ECall) (followers : List (String × ECall)) :
    (leader = none → existsRoute leader leaderResp followers = .error 503) ∧
    (∀ l, leader = some l → leaderResp = .err →
      existsRoute leader leaderResp followers = .error 503 ∧
      ∀ followers2, existsRoute leader leaderResp followers2 =
        existsRoute leader leaderResp followers) ∧
    (∀ l, leader = some l → leaderResp = .ok true →
      existsRoute leader leaderResp followers = .ok true) ∧
    (∀ l, leader = some l → leaderResp = .ok false →
      existsRoute leader leaderResp followers =
        .ok (followers.any
          (fun p => decide (p.1 ≠ l) && decide (p.2 = ECall.ok true)))) := by
  refine ⟨?_, ?_, ?_, ?_⟩
  · rintro rfl
    rfl
  · rintro l rfl rfl
    exact ⟨rfl, fun _ => rfl⟩
  · rintro l rfl rfl
    rfl
  · rintro l rfl rfl
    simp [existsRoute, pollFollowers_eq_any]

theorem C9_exists_leader_authoritative_witness :
    (((some "ld" : Option String) = none →
      existsRoute (some "ld") (.ok false) [("ld", .ok true), ("f1", .err),
        ("f2", .ok true)] = .error 503) ∧
    (∀ l, (some "ld" : Option String) = some l → ECall.ok false = .err →
      existsRoute (some "ld") (.ok false) [("ld", .ok true), ("f1", .err),
        ("f2", .ok true)] = .error 503 ∧
      ∀ followers2, existsRoute (some "ld") (.ok false) followers2 =
        existsRoute (some "ld") (.ok false) [("ld", .ok true), ("f1", .err),
          ("f2", .ok true)]) ∧
    (∀ l, (some "ld" : Option String) = some l → ECall.ok false = .ok true →
      existsRoute (some "ld") (.ok false) [("ld", .ok true), ("f1", .err),
        ("f2", .ok true)] = .ok true) ∧
    (∀ l, (some "ld" : Option String) = some l → ECall.ok false = .ok false →
      existsRoute (some "ld") (.ok false) [("ld", .ok true), ("f1", .err),
        ("f2", .ok true)] =
        .ok ([("ld", ECall.ok true), ("f1", ECall.err),
          ("f2", ECall.ok true)].any
          (fun p => decide (p.1 ≠ l) && decide (p.2 = ECall.ok true))))) :=
  C9_exists_leader_authoritative (some "ld") (.ok false)
    [("ld", .ok true), ("f1", .err), ("f2", .ok true)]
